import Mathlib

/-!
Verification of the `domake` translation pipeline (src/main.rs).

The program reads a `Dofile`, extracts `include` directives and task blocks
with two regex scans (`parse`), and renders a Makefile text (`write`,
`Command::to_makefile`).  We embed the two scans as executable functions over
`List Char` that implement the leftmost-first match semantics of the Rust
`regex` crate for the two concrete patterns used by the program:

  includes: `include (?<include>[[:print:]]+)`

  commands: `(?<name>\[[[:print:]]+])(?:\r\n|\n)?(?<prior_commands>[[:print:]]+)?`
            `(?:\r\n|\n)(?<description>#[[:print:]]+)(?:\r\n|\n)`
            `(?<instructions>(?:[[:print:]]+(?:\r\n|\n)?)+)`

`captures_iter` repeatedly finds the leftmost match and continues after its
end; greedy subpatterns prefer longer matches, optional groups prefer to
match, with the usual backtracking priority order.  Recursion is by explicit
fuel (one unit per consumed character position), with the top-level wrappers
supplying `length + 1` fuel, which is always sufficient because every match
consumes at least one character.
-/

/-- ASCII printable characters, the `[[:print:]]` class of the Rust regex
crate: `0x20` to `0x7e` inclusive. -/
def isPrint (c : Char) : Bool := 0x20 ≤ c.toNat && c.toNat ≤ 0x7e

/-- Maximal printable run at the head of the text (a greedy `[[:print:]]*`). -/
def takeP (s : List Char) : List Char := s.takeWhile isPrint

/-- The text remaining after the maximal printable run. -/
def dropP (s : List Char) : List Char := s.dropWhile isPrint

/-- The line separator `(?:\r\n|\n)`: returns the consumed separator
characters and the remaining text. -/
def eatNl (s : List Char) : Option (List Char × List Char) :=
  match s with
  | [] => none
  | c :: r =>
    if c = '\r' then
      match r with
      | c2 :: r2 => if c2 = '\n' then some (['\r', '\n'], r2) else none
      | [] => none
    else if c = '\n' then some (['\n'], r)
    else none

/-- Rust `str::split('\n')`: splits at every `'\n'`, keeping empty pieces
(including a trailing empty piece when the text ends with `'\n'`). -/
def splitNl : List Char → List (List Char)
  | [] => [[]]
  | c :: r =>
    if c = '\n' then [] :: splitNl r
    else
      match splitNl r with
      | [] => [[c]]
      | h :: t2 => (c :: h) :: t2

/-- The greedy instructions group `(?:[[:print:]]+(?:\r\n|\n)?)+`, starting at
a printable character: consumes consecutive nonempty printable lines together
with their separators (including a final separator when present), stopping
before the first position where an iteration cannot start with a printable
character.  Returns (captured text, remaining text).  Fuel decreases once per
line; callers pass at least the length of the text. -/
def instrLoop : Nat → List Char → List Char × List Char
  | 0, s => ([], s)
  | fuel+1, s =>
    let run := takeP s
    let rest := dropP s
    match eatNl rest with
    | none => (run, rest)
    | some (nl, r) =>
      match r with
      | [] => (run ++ nl, r)
      | c :: _ =>
        if isPrint c then
          let pr := instrLoop fuel r
          (run ++ nl ++ pr.1, pr.2)
        else (run ++ nl, r)

/-- The tail `(?<description>#[[:print:]]+)(?:\r\n|\n)(?<instructions>...)` of
the command pattern: a `#`-line with at least one printable character after
the marker, a line separator, then the instructions group (which must start
with a printable character).  Returns (description capture, raw instructions
capture, remaining text). -/
def descInstr (s : List Char) : Option (String × List Char × List Char) :=
  match s with
  | [] => none
  | c :: u =>
    if c = '#' then
      let D := takeP u
      if D.isEmpty then none
      else
        match eatNl (dropP u) with
        | none => none
        | some (_, v) =>
          match v with
          | [] => none
          | c2 :: _ =>
            if isPrint c2 then
              let pr := instrLoop v.length v
              some (String.mk (c :: D), pr.1, pr.2)
            else none
    else none

/-- The part of the command pattern after the closing `]` of the header:
`(?:\r\n|\n)?(?<prior_commands>[[:print:]]+)?(?:\r\n|\n)` followed by
`descInstr`, with the backtracking priority order of the regex engine
(the optional separator prefers to match; the greedy optional
`prior_commands` group prefers the full printable run, and any shorter
attempt fails on the mandatory separator that follows).  Returns
(prior_commands or "", description, raw instructions capture, rest). -/
def afterName (r1 : List Char) : Option (String × String × List Char × List Char) :=
  let P := takeP r1
  if P.isEmpty then
    match eatNl r1 with
    | none => none
    | some (_, v1) =>
      let M := takeP v1
      let a :=
        if M.isEmpty then none
        else
          match eatNl (dropP v1) with
          | none => none
          | some (_, v2) => (descInstr v2).map (fun x => (String.mk M, x))
      match a with
      | some res => some res
      | none =>
        let b :=
          match eatNl v1 with
          | none => none
          | some (_, v2) => (descInstr v2).map (fun x => ("", x))
        match b with
        | some res => some res
        | none => (descInstr v1).map (fun x => ("", x))
  else
    match eatNl (dropP r1) with
    | none => none
    | some (_, v) => (descInstr v).map (fun x => (String.mk P, x))

/-- The parsed command model of the program (struct `Command` in main.rs). -/
structure Command where
  name : String
  description : String
  prior_commands : String
  instructions : List String
deriving DecidableEq, Repr

/-- Rust `trim_start_matches("[")`: removes every leading `'['`. -/
def trimStartLB (l : List Char) : List Char := l.dropWhile (fun c => c = '[')

/-- Rust `trim_end_matches("]")`: removes every trailing `']'`. -/
def trimEndRB (l : List Char) : List Char :=
  (l.reverse.dropWhile (fun c => c = ']')).reverse

/-- The candidate positions of the closing `]` of the header, in the
backtracking order of the greedy `\[[[:print:]]+]`: indices `k ≥ 1` of `R`
(the maximal printable run after the opening `[`) holding `']'`, tried from
the largest down. -/
def candKs (R : List Char) : List Nat :=
  ((List.range R.length).filter (fun k => k != 0 && R.getD k ' ' == ']')).reverse

/-- One attempt of the command pattern with the header closed at index `k` of
the text `t` following the opening `[`: the capture of the `name` group is
`[` ++ `t.take (k+1)`, and the stored name strips all leading `[` and
trailing `]` from it (Rust `trim_start_matches`/`trim_end_matches`).  The
raw instructions capture is split at `'\n'` (Rust `split('\n')`). -/
def attemptK (t : List Char) (k : Nat) : Option (Command × List Char) :=
  let cap := '[' :: t.take (k+1)
  let nm := String.mk (trimEndRB (trimStartLB cap))
  match afterName (t.drop (k+1)) with
  | none => none
  | some (pr, d, icap, rest) =>
    some ({ name := nm, description := d, prior_commands := pr,
            instructions := (splitNl icap).map String.mk }, rest)

/-- Try the closing-bracket candidates in backtracking order; first success
wins. -/
def tryCands (t : List Char) : List Nat → Option (Command × List Char)
  | [] => none
  | k :: ks =>
    match attemptK t k with
    | some res => some res
    | none => tryCands t ks

/-- Match the whole command pattern at the start of `s`: an opening `[`, a
nonempty printable run containing the closing `]`, then `afterName`. -/
def matchAt (s : List Char) : Option (Command × List Char) :=
  match s with
  | [] => none
  | c :: t =>
    if c = '[' then
      let R := takeP t
      if R.isEmpty then none else tryCands t (candKs R)
    else none

/-- The literal `include ` of the include pattern. -/
def incLit : List Char := ['i', 'n', 'c', 'l', 'u', 'd', 'e', ' ']

/-- Match the include pattern `include (?<include>[[:print:]]+)` at the start
of `s`: the literal, then a nonempty maximal printable run as the capture. -/
def matchInc (s : List Char) : Option (List Char × List Char) :=
  if incLit.isPrefixOf s then
    let rest := s.drop 8
    let cap := takeP rest
    if cap.isEmpty then none else some (cap, dropP rest)
  else none

/-- `captures_iter` for the command pattern: scan positions left to right,
emit the leftmost match, continue after its end. -/
def scanCmds : Nat → List Char → List Command
  | 0, _ => []
  | fuel+1, s =>
    match s with
    | [] => []
    | _ :: rest =>
      match matchAt s with
      | some (c, after) => c :: scanCmds fuel after
      | none => scanCmds fuel rest

/-- `captures_iter` for the include pattern. -/
def scanInc : Nat → List Char → List (List Char)
  | 0, _ => []
  | fuel+1, s =>
    match s with
    | [] => []
    | _ :: rest =>
      match matchInc s with
      | some (cap, after) => cap :: scanInc fuel after
      | none => scanInc fuel rest

/-- Position-annotated variant of `scanCmds`: records the start offset of
each match in the original text. -/
def scanCmdsP : Nat → Nat → List Char → List (Nat × Command)
  | 0, _, _ => []
  | fuel+1, pos, s =>
    match s with
    | [] => []
    | _ :: rest =>
      match matchAt s with
      | some (c, after) => (pos, c) :: scanCmdsP fuel (pos + (s.length - after.length)) after
      | none => scanCmdsP fuel (pos + 1) rest

/-- Position-annotated variant of `scanInc`. -/
def scanIncP : Nat → Nat → List Char → List (Nat × List Char)
  | 0, _, _ => []
  | fuel+1, pos, s =>
    match s with
    | [] => []
    | _ :: rest =>
      match matchInc s with
      | some (cap, after) => (pos, cap) :: scanIncP fuel (pos + (s.length - after.length)) after
      | none => scanIncP fuel (pos + 1) rest

/-- The include half of `parse` in main.rs. -/
def parseIncludes (s : String) : List String :=
  (scanInc (s.data.length + 1) s.data).map String.mk

/-- The command half of `parse` in main.rs. -/
def parseCommands (s : String) : List Command :=
  scanCmds (s.data.length + 1) s.data

/-- `fn parse(content) -> (Vec<String>, Vec<Command>)` of main.rs. -/
def parse (s : String) : List String × List Command :=
  (parseIncludes s, parseCommands s)

/-- Position-annotated include extraction (start offset of each match). -/
def parseIncludesP (s : String) : List (Nat × String) :=
  (scanIncP (s.data.length + 1) 0 s.data).map (fun x => (x.1, String.mk x.2))

/-- Position-annotated command extraction (start offset of each match). -/
def parseCommandsP (s : String) : List (Nat × Command) :=
  scanCmdsP (s.data.length + 1) 0 s.data

/-- The Unicode `White_Space` property, the character class trimmed by Rust
`str::trim`. -/
def rustIsWs (c : Char) : Bool :=
  c.toNat ∈ [0x09, 0x0A, 0x0B, 0x0C, 0x0D, 0x20, 0x85, 0xA0, 0x1680,
             0x2000, 0x2001, 0x2002, 0x2003, 0x2004, 0x2005, 0x2006, 0x2007,
             0x2008, 0x2009, 0x200A, 0x2028, 0x2029, 0x202F, 0x205F, 0x3000]

/-- Rust `str::trim`: removes leading and trailing whitespace. -/
def rustTrim (s : String) : String :=
  String.mk (((s.data.dropWhile rustIsWs).reverse.dropWhile rustIsWs).reverse)

/-- `Command::to_makefile` of main.rs: the block header lines, then one
tab-prefixed line per instruction appended with `push_str`.  The description
is rendered as `description[1..].trim()` (the byte slice `[1..]` equals
dropping the first character whenever that character is one-byte ASCII,
which claim C10 establishes for every parsed Command; on other strings the
Rust slice would panic, which the total model cannot represent). -/
def Command.to_makefile (c : Command) : String :=
  c.instructions.foldl (fun b i => b ++ ("\t" ++ i ++ "\n"))
    ("## " ++ c.name ++ ": " ++ rustTrim (String.mk (c.description.data.drop 1)) ++ "\n" ++
     ".PHONY: " ++ c.name ++ "\n" ++
     c.name ++ ": " ++ c.prior_commands ++ "\n")

/-- `fn write` of main.rs, as a pure function of the parsed model, the
embedded boilerplate blob (`include_str!("../make_helpers")`, an opaque
asset outside src/) and the formatted date string (the `chrono` clock value,
injected as a parameter): the sequential `push_str` buffer construction. -/
def write (includes : List String) (make_helpers : String) (cmds : List Command)
    (date : String) : String :=
  let b0 := "# This Makefile was done using 'domake'\n"
  let b1 := b0 ++ ("# Generated at " ++ date ++ "\n")
  let b2 := b1 ++ "\n"
  let b3 := includes.foldl (fun b i => b ++ ("include " ++ i ++ "\n")) b2
  let b4 := b3 ++ "\n"
  let b5 := b4 ++ (make_helpers ++ "\n")
  let b6 := b5 ++ "\n"
  cmds.foldl (fun b c => b ++ (c.to_makefile ++ "\n")) b6

/-- Left-to-right concatenation of the rendered pieces of a list. -/
def joinMap (f : α → String) : List α → String
  | [] => ""
  | x :: xs => f x ++ joinMap f xs

/-- Modelled from the spec: chrono's `%d` / `%m` are zero-padded to two
digits. -/
def pad2 (n : Nat) : String := if n < 10 then "0" ++ toString n else toString n

/-- Modelled from the spec: chrono's `%Y` is the full year, zero-padded to
four digits (for years below 10000). -/
def pad4 (n : Nat) : String :=
  if n < 10 then "000" ++ toString n
  else if n < 100 then "00" ++ toString n
  else if n < 1000 then "0" ++ toString n
  else toString n

/-- Modelled from the spec: the generation date stamped in `DD/MM/YYYY`
format (chrono `%d/%m/%Y`, an external crate not under src/). -/
def formatDate (d m y : Nat) : String := pad2 d ++ "/" ++ pad2 m ++ "/" ++ pad4 y

/-- The spec's words for one rendered Command block (§4.3 item 4): the exact
four-part shape, each instruction line prefixed with one tab. -/
def blockSpec (c : Command) : String :=
  "## " ++ c.name ++ ": " ++ rustTrim (String.mk (c.description.data.drop 1)) ++ "\n" ++
  ".PHONY: " ++ c.name ++ "\n" ++
  c.name ++ ": " ++ c.prior_commands ++ "\n" ++
  joinMap (fun i => "\t" ++ i ++ "\n") c.instructions

/-- The spec's words for the whole rendered output (§4.3): header comment,
date line, blank line; one `include <target>` line per include then a blank
line; the boilerplate blob then a blank line; one block per Command, each
terminated by a trailing newline. -/
def renderSpec (includes : List String) (blob : String) (cmds : List Command)
    (date : String) : String :=
  "# This Makefile was done using 'domake'\n" ++
  ("# Generated at " ++ date ++ "\n") ++ "\n" ++
  joinMap (fun t => "include " ++ t ++ "\n") includes ++ "\n" ++
  (blob ++ "\n") ++ "\n" ++
  joinMap (fun c => blockSpec c ++ "\n") cmds

/-! ### Basic list facts used throughout -/

theorem tw_all {p : Char → Bool} : ∀ {l : List Char}, (∀ c ∈ l, p c = true) →
    l.takeWhile p = l
  | [], _ => rfl
  | c :: l, h => by
    simp only [List.takeWhile_cons, h c (by simp), if_true, List.cons.injEq, true_and]
    exact tw_all (fun x hx => h x (by simp [hx]))

theorem dw_all {p : Char → Bool} : ∀ {l : List Char}, (∀ c ∈ l, p c = true) →
    l.dropWhile p = []
  | [], _ => rfl
  | c :: l, h => by
    simp only [List.dropWhile_cons, h c (by simp), if_true]
    exact dw_all (fun x hx => h x (by simp [hx]))

theorem tw_app {p : Char → Bool} {c : Char} (hc : p c = false) :
    ∀ {l : List Char}, (∀ x ∈ l, p x = true) → ∀ r,
      (l ++ c :: r).takeWhile p = l
  | [], _, r => by simp [List.takeWhile_cons, hc]
  | x :: l, h, r => by
    simp only [List.cons_append, List.takeWhile_cons, h x (by simp), if_true,
      List.cons.injEq, true_and]
    exact tw_app hc (fun y hy => h y (by simp [hy])) r

theorem dw_app {p : Char → Bool} {c : Char} (hc : p c = false) :
    ∀ {l : List Char}, (∀ x ∈ l, p x = true) → ∀ r,
      (l ++ c :: r).dropWhile p = c :: r
  | [], _, r => by simp [List.dropWhile_cons, hc]
  | x :: l, h, r => by
    simp only [List.cons_append, List.dropWhile_cons, h x (by simp), if_true]
    exact dw_app hc (fun y hy => h y (by simp [hy])) r

theorem dw_head {p : Char → Bool} : ∀ {l : List Char} {c : Char} {cs : List Char},
    l.dropWhile p = c :: cs → p c = false
  | [], _, _, h => by simp at h
  | x :: l, c, cs, h => by
    by_cases hx : p x
    · rw [List.dropWhile_cons_of_pos hx] at h; exact dw_head h
    · rw [List.dropWhile_cons_of_neg hx] at h
      cases h; simpa using hx

/-- `dropWhile` over an append. -/
theorem dw_append (p : Char → Bool) : ∀ (l r : List Char),
    (l ++ r).dropWhile p =
      if (l.dropWhile p).isEmpty then r.dropWhile p else l.dropWhile p ++ r
  | [], r => by simp
  | c :: l, r => by
    by_cases hc : p c
    · simp only [List.cons_append, List.dropWhile_cons_of_pos hc]
      exact dw_append p l r
    · simp [List.dropWhile_cons_of_neg hc]

/-! ### Renderer: the buffer construction equals the spec's join shape -/

theorem foldl_append_str {α : Type} (f : α → String) :
    ∀ (l : List α) (b : String),
      l.foldl (fun acc x => acc ++ f x) b = b ++ joinMap f l
  | [], b => by simp [joinMap, String.append_empty]
  | x :: l, b => by
    simp only [List.foldl_cons, joinMap]
    rw [foldl_append_str f l (b ++ f x), String.append_assoc]

/-- `Command::to_makefile` produces exactly the spec's block shape. -/
theorem to_makefile_eq_blockSpec (c : Command) :
    Command.to_makefile c = blockSpec c := by
  unfold Command.to_makefile blockSpec
  rw [foldl_append_str]

/-- `fn write`'s sequential buffer pushes produce exactly the spec's
concatenation. -/
theorem write_eq_renderSpec (includes : List String) (blob : String)
    (cmds : List Command) (date : String) :
    write includes blob cmds date = renderSpec includes blob cmds date := by
  unfold write renderSpec
  rw [foldl_append_str, foldl_append_str]
  simp only [String.append_assoc]
  have hb : (fun c : Command => Command.to_makefile c ++ "\n")
      = (fun c : Command => blockSpec c ++ "\n") := by
    funext c; rw [to_makefile_eq_blockSpec]
  rw [hb]

/-! ### Decomposition facts: every successful match consumes a nonempty
prefix, and its captures have the grammar's shape -/

theorem eatNl_eq : ∀ {s nl r : List Char}, eatNl s = some (nl, r) →
    s = nl ++ r ∧ nl ≠ [] := by
  intro s nl r h
  match s with
  | [] => simp [eatNl] at h
  | c :: rest =>
    by_cases hc : c = '\r'
    · subst hc
      match rest with
      | [] => simp [eatNl] at h
      | c2 :: r2 =>
        by_cases hc2 : c2 = '\n'
        · subst hc2
          simp only [eatNl, if_pos rfl, Option.some.injEq, Prod.mk.injEq] at h
          obtain ⟨rfl, rfl⟩ := h
          simp
        · simp [eatNl, hc2] at h
    · by_cases hn : c = '\n'
      · subst hn
        simp only [eatNl, reduceCtorEq, reduceIte, if_pos rfl, Option.some.injEq,
          Prod.mk.injEq] at h
        obtain ⟨rfl, rfl⟩ := h
        simp
      · simp [eatNl, hc, hn] at h

theorem takeP_dropP (s : List Char) : takeP s ++ dropP s = s :=
  List.takeWhile_append_dropWhile isPrint s

/-- The instructions capture followed by the remainder reassembles the
input. -/
theorem instrLoop_app : ∀ (fuel : Nat) (s : List Char),
    (instrLoop fuel s).1 ++ (instrLoop fuel s).2 = s
  | 0, s => by simp [instrLoop]
  | fuel+1, s => by
    simp only [instrLoop]
    split
    · simpa using takeP_dropP s
    · rename_i nl r heq
      obtain ⟨hr, -⟩ := eatNl_eq heq
      split
      · simp only []
        rw [List.append_assoc, ← hr]
        simpa using takeP_dropP s
      · rename_i c rest
        split
        · simp only []
          have ih := instrLoop_app fuel (c :: rest)
          calc takeP s ++ nl ++ (instrLoop fuel (c :: rest)).1 ++
                (instrLoop fuel (c :: rest)).2
              = takeP s ++ (nl ++ ((instrLoop fuel (c :: rest)).1 ++
                (instrLoop fuel (c :: rest)).2)) := by simp [List.append_assoc]
            _ = takeP s ++ (nl ++ (c :: rest)) := by rw [ih]
            _ = s := by rw [← hr]; exact takeP_dropP s
        · simp only []
          rw [List.append_assoc, ← hr]
          simpa using takeP_dropP s

/-- With enough fuel, the text remaining after the instructions capture is
either empty or starts with a non-printable character: the greedy
instructions group stops only at end of document or at a non-printable
position (a blank line's second separator, a tab, ...). -/
theorem instrLoop_rest : ∀ (fuel : Nat) (s : List Char), s.length ≤ fuel →
    ∀ {c : Char} {cs : List Char}, (instrLoop fuel s).2 = c :: cs →
      isPrint c = false := by
  intro fuel
  induction fuel with
  | zero =>
    intro s hs c cs h
    have hs0 : s = [] := List.length_eq_zero.mp (Nat.le_zero.mp hs)
    subst hs0
    simp [instrLoop] at h
  | succ fuel ih =>
    intro s hs c cs h
    simp only [instrLoop] at h
    split at h
    · exact dw_head h
    · rename_i nl r heq
      obtain ⟨hr, hnl⟩ := eatNl_eq heq
      split at h
      · simp at h
      · rename_i c2 rest
        split at h
        · rename_i hc2
          refine ih (c2 :: rest) ?_ h
          have h1 : (takeP s).length + (dropP s).length = s.length := by
            rw [← List.length_append, takeP_dropP]
          have h2 : (dropP s).length = nl.length + (c2 :: rest).length := by
            rw [hr, List.length_append]
          have h3 : 1 ≤ nl.length := by
            cases nl with
            | nil => exact absurd rfl hnl
            | cons _ _ => simp
          omega
        · rename_i hc2
          cases h; simpa using hc2

theorem descInstr_inv : ∀ {s : List Char} {d : String} {cap r : List Char},
    descInstr s = some (d, cap, r) →
    ∃ D nl v, s = '#' :: (D ++ nl ++ v) ∧ D ≠ [] ∧ (∀ c ∈ D, isPrint c = true) ∧
      nl ≠ [] ∧ (∃ b body, v = b :: body ∧ isPrint b = true) ∧
      d = String.mk ('#' :: D) ∧
      cap = (instrLoop v.length v).1 ∧ r = (instrLoop v.length v).2 := by
  intro s d cap r h
  simp only [descInstr] at h
  split at h
  · simp at h
  · rename_i c u
    split at h
    · rename_i hc
      subst hc
      split at h
      · simp at h
      · rename_i hD
        split at h
        · simp at h
        · rename_i p nl v heq
          split at h
          · simp at h
          · rename_i c2 rest
            split at h
            · rename_i hc2
              simp only [Option.some.injEq, Prod.mk.injEq] at h
              obtain ⟨h1, h2, h3⟩ := h
              obtain ⟨hu, hnl⟩ := eatNl_eq heq
              refine ⟨takeP u, nl, c2 :: rest, ?_, ?_, ?_, hnl,
                ⟨c2, rest, rfl, hc2⟩, h1.symm, h2.symm, h3.symm⟩
              · rw [List.append_assoc, ← hu, takeP_dropP]
              · simpa [List.isEmpty_iff] using hD
              · intro x hx; exact List.mem_takeWhile_imp hx
            · simp at h
    · simp at h

theorem afterName_inv : ∀ {r1 : List Char} {pr d : String} {cap r : List Char},
    afterName r1 = some (pr, d, cap, r) →
    ∃ pre v, r1 = pre ++ v ∧ pre ≠ [] ∧ descInstr v = some (d, cap, r) := by
  intro r1 pr d cap r h
  simp only [afterName] at h
  split at h
  · rename_i hP
    split at h
    · simp at h
    · rename_i p nl v1 heq1
      obtain ⟨hr1, hnl⟩ := eatNl_eq heq1
      split at h
      · rename_i res ha
        simp only [Option.some.injEq] at h
        subst h
        split at ha
        · simp at ha
        · rename_i hM
          split at ha
          · simp at ha
          · rename_i p2 nl2 v2 heq2
            rw [Option.map_eq_some'] at ha
            obtain ⟨x, hx, hfx⟩ := ha
            obtain ⟨hv1, hnl2⟩ := eatNl_eq heq2
            refine ⟨nl ++ (takeP v1 ++ nl2), v2, ?_, by simp [hnl], ?_⟩
            · rw [hr1, List.append_assoc, List.append_assoc, ← hv1, takeP_dropP]
            · obtain ⟨x1, x2, x3⟩ := x
              simp only [Prod.mk.injEq] at hfx
              obtain ⟨-, hb, hc', hd⟩ := hfx
              rw [hx]; rw [hb, hc', hd]
      · rename_i ha
        split at h
        · rename_i res hb
          simp only [Option.some.injEq] at h
          subst h
          split at hb
          · simp at hb
          · rename_i p2 nl2 v2 heq2
            rw [Option.map_eq_some'] at hb
            obtain ⟨x, hx, hfx⟩ := hb
            obtain ⟨hv1, hnl2⟩ := eatNl_eq heq2
            refine ⟨nl ++ nl2, v2, ?_, by simp [hnl], ?_⟩
            · rw [hr1, hv1, List.append_assoc]
            · obtain ⟨x1, x2, x3⟩ := x
              simp only [Prod.mk.injEq] at hfx
              obtain ⟨-, hb2, hc', hd⟩ := hfx
              rw [hx]; rw [hb2, hc', hd]
        · rename_i hb
          rw [Option.map_eq_some'] at h
          obtain ⟨x, hx, hfx⟩ := h
          refine ⟨nl, v1, hr1, hnl, ?_⟩
          obtain ⟨x1, x2, x3⟩ := x
          simp only [Prod.mk.injEq] at hfx
          obtain ⟨-, hb2, hc', hd⟩ := hfx
          rw [hx]; rw [hb2, hc', hd]
  · rename_i hP
    split at h
    · simp at h
    · rename_i p nl v heq
      rw [Option.map_eq_some'] at h
      obtain ⟨x, hx, hfx⟩ := h
      obtain ⟨hdr, hnl⟩ := eatNl_eq heq
      refine ⟨takeP r1 ++ nl, v, ?_, by simp [hnl], ?_⟩
      · rw [List.append_assoc, ← hdr, takeP_dropP]
      · obtain ⟨x1, x2, x3⟩ := x
        simp only [Prod.mk.injEq] at hfx
        obtain ⟨-, hb2, hc', hd⟩ := hfx
        rw [hx]; rw [hb2, hc', hd]

theorem attemptK_inv : ∀ {t : List Char} {k : Nat} {cm : Command} {r : List Char},
    attemptK t k = some (cm, r) →
    ∃ pr d icap,
      afterName (t.drop (k+1)) = some (pr, d, icap, r) ∧
      cm = { name := String.mk (trimEndRB (trimStartLB ('[' :: t.take (k+1)))),
             description := d, prior_commands := pr,
             instructions := (splitNl icap).map String.mk } := by
  intro t k cm r h
  simp only [attemptK] at h
  split at h
  · simp at h
  · rename_i pr d icap rest heq
    simp only [Option.some.injEq, Prod.mk.injEq] at h
    obtain ⟨h1, h2⟩ := h
    exact ⟨pr, d, icap, h2 ▸ heq, h1.symm⟩

theorem tryCands_inv : ∀ {t : List Char} {ks : List Nat} {cm : Command} {r : List Char},
    tryCands t ks = some (cm, r) → ∃ k, k ∈ ks ∧ attemptK t k = some (cm, r) := by
  intro t ks
  induction ks with
  | nil => intro cm r h; simp [tryCands] at h
  | cons k ks ih =>
    intro cm r h
    simp only [tryCands] at h
    split at h
    · rename_i res heq
      simp only [Option.some.injEq] at h
      exact ⟨k, by simp, h ▸ heq⟩
    · obtain ⟨k', hk', ha⟩ := ih h
      exact ⟨k', by simp [hk'], ha⟩

theorem matchAt_inv : ∀ {s : List Char} {cm : Command} {r : List Char},
    matchAt s = some (cm, r) →
    ∃ t k, s = '[' :: t ∧ attemptK t k = some (cm, r) := by
  intro s cm r h
  simp only [matchAt] at h
  split at h
  · simp at h
  · rename_i c t
    split at h
    · rename_i hc
      subst hc
      split at h
      · simp at h
      · obtain ⟨k, -, ha⟩ := tryCands_inv h
        exact ⟨t, k, rfl, ha⟩
    · simp at h

/-- A successful command match consumes a nonempty prefix of the text. -/
theorem matchAt_suffix : ∀ {s : List Char} {cm : Command} {r : List Char},
    matchAt s = some (cm, r) → ∃ pre, pre ≠ [] ∧ s = pre ++ r := by
  intro s cm r h
  obtain ⟨t, k, rfl, ha⟩ := matchAt_inv h
  obtain ⟨pr, d, icap, haf, -⟩ := attemptK_inv ha
  obtain ⟨pre1, v, hdrop, -, hdesc⟩ := afterName_inv haf
  obtain ⟨D, nl, w, hv, -, -, -, -, -, hcap, hr⟩ := descInstr_inv hdesc
  have hw : (instrLoop w.length w).1 ++ (instrLoop w.length w).2 = w :=
    instrLoop_app w.length w
  refine ⟨'[' :: (t.take (k+1) ++ pre1 ++ ('#' :: (D ++ nl ++ (instrLoop w.length w).1))),
    by simp, ?_⟩
  have ht : t = t.take (k+1) ++ t.drop (k+1) := (List.take_append_drop (k+1) t).symm
  calc '[' :: t
      = '[' :: (t.take (k+1) ++ t.drop (k+1)) := by rw [← ht]
    _ = '[' :: (t.take (k+1) ++ (pre1 ++ v)) := by rw [← hdrop]
    _ = '[' :: (t.take (k+1) ++ (pre1 ++ ('#' :: (D ++ nl ++ w)))) := by rw [← hv]
    _ = '[' :: (t.take (k+1) ++ (pre1 ++ ('#' :: (D ++ nl ++
          ((instrLoop w.length w).1 ++ (instrLoop w.length w).2))))) := by rw [hw]
    _ = '[' :: (t.take (k+1) ++ pre1 ++ ('#' :: (D ++ nl ++ (instrLoop w.length w).1)))
          ++ (instrLoop w.length w).2 := by simp [List.append_assoc, hr]
    _ = _ := by rw [← hr]

/-- A successful command match strictly shrinks the text. -/
theorem matchAt_lt {s : List Char} {cm : Command} {r : List Char}
    (h : matchAt s = some (cm, r)) : r.length < s.length := by
  obtain ⟨pre, hpre, heq⟩ := matchAt_suffix h
  rw [heq, List.length_append]
  cases pre with
  | nil => exact absurd rfl hpre
  | cons _ _ => simp only [List.length_cons]; omega

/-- Every parsed Command's description is `#` followed by a nonempty printable
run, and its instructions are the `'\n'`-split of an `instrLoop` capture. -/
theorem matchAt_shape : ∀ {s : List Char} {cm : Command} {r : List Char},
    matchAt s = some (cm, r) →
    ∃ D v, D ≠ [] ∧ (∀ c ∈ D, isPrint c = true) ∧
      cm.description = String.mk ('#' :: D) ∧
      (∃ b body, v = b :: body ∧ isPrint b = true) ∧
      cm.instructions = (splitNl (instrLoop v.length v).1).map String.mk ∧
      r = (instrLoop v.length v).2 := by
  intro s cm r h
  obtain ⟨t, k, rfl, ha⟩ := matchAt_inv h
  obtain ⟨pr, d, icap, haf, hcm⟩ := attemptK_inv ha
  obtain ⟨pre1, v, hdrop, -, hdesc⟩ := afterName_inv haf
  obtain ⟨D, nl, w, hv, hD, hDp, -, hw, hd, hcap, hr⟩ := descInstr_inv hdesc
  exact ⟨D, w, hD, hDp, by rw [hcm, hd], hw, by rw [hcm, hcap], hr⟩

/-! ### Include matches -/

theorem matchInc_inv : ∀ {s cap r : List Char}, matchInc s = some (cap, r) →
    s = (incLit ++ cap) ++ r ∧ cap ≠ [] := by
  intro s cap r h
  simp only [matchInc] at h
  split at h
  · rename_i hpre
    split at h
    · simp at h
    · rename_i hcap
      simp only [Option.some.injEq, Prod.mk.injEq] at h
      obtain ⟨h1, h2⟩ := h
      rw [List.isPrefixOf_iff_prefix] at hpre
      obtain ⟨t, ht⟩ := hpre
      have hdrop : s.drop 8 = t := by rw [← ht]; exact List.drop_left' (by rfl)
      refine ⟨?_, ?_⟩
      · rw [← ht, List.append_assoc]
        have : cap ++ r = t := by rw [← h1, ← h2, hdrop]; exact takeP_dropP t
        rw [this]
      · intro hc
        rw [hc] at h1
        exact hcap (by rw [h1]; rfl)
  · simp at h

theorem matchInc_lt {s cap r : List Char} (h : matchInc s = some (cap, r)) :
    r.length < s.length := by
  obtain ⟨heq, -⟩ := matchInc_inv h
  rw [heq]
  simp [incLit, List.length_append]
  omega

/-! ### Scan-level facts -/

theorem scanCmds_nil : ∀ fuel : Nat, scanCmds fuel [] = [] := by
  intro fuel; cases fuel <;> simp [scanCmds]

theorem scanInc_nil : ∀ fuel : Nat, scanInc fuel [] = [] := by
  intro fuel; cases fuel <;> simp [scanInc]

/-- Every emitted Command arises from a successful `matchAt` somewhere. -/
theorem scanCmds_mem : ∀ (fuel : Nat) (s : List Char) (c : Command),
    c ∈ scanCmds fuel s → ∃ u r, matchAt u = some (c, r) := by
  intro fuel
  induction fuel with
  | zero => intro s c h; simp [scanCmds] at h
  | succ fuel ih =>
    intro s c h
    cases s with
    | nil => simp [scanCmds] at h
    | cons x rest =>
      cases hm : matchAt (x :: rest) with
      | none =>
        simp only [scanCmds, hm] at h
        exact ih rest c h
      | some p =>
        simp only [scanCmds, hm] at h
        cases h with
        | head => exact ⟨x :: rest, p.2, by rw [hm]⟩
        | tail _ h2 => exact ih p.2 c h2

/-- With sufficient fuel the command scan is empty exactly when no position
matches. -/
theorem scanCmds_eq_nil : ∀ (fuel : Nat) (s : List Char), s.length ≤ fuel →
    (scanCmds fuel s = [] ↔ ∀ k, matchAt (s.drop k) = none) := by
  intro fuel
  induction fuel with
  | zero =>
    intro s hs
    have hs0 : s = [] := List.length_eq_zero.mp (Nat.le_zero.mp hs)
    subst hs0
    simp [scanCmds, matchAt]
  | succ fuel ih =>
    intro s hs
    cases s with
    | nil => simp [scanCmds, matchAt]
    | cons c rest =>
      cases hm : matchAt (c :: rest) with
      | some p =>
        simp only [scanCmds, hm]
        constructor
        · intro h; simp at h
        · intro hall; exact absurd (by simpa using hall 0) (by simp [hm])
      | none =>
        simp only [scanCmds, hm]
        rw [ih rest (by simpa using Nat.le_of_succ_le_succ hs)]
        constructor
        · intro hall k
          cases k with
          | zero => simpa using hm
          | succ k => simpa using hall k
        · intro hall k
          have := hall (k+1); simpa using this

/-- With sufficient fuel the include scan is empty exactly when no position
matches. -/
theorem scanInc_eq_nil : ∀ (fuel : Nat) (s : List Char), s.length ≤ fuel →
    (scanInc fuel s = [] ↔ ∀ k, matchInc (s.drop k) = none) := by
  intro fuel
  induction fuel with
  | zero =>
    intro s hs
    have hs0 : s = [] := List.length_eq_zero.mp (Nat.le_zero.mp hs)
    subst hs0
    simp [scanInc, matchInc, incLit]
  | succ fuel ih =>
    intro s hs
    cases s with
    | nil => simp [scanInc, matchInc, incLit]
    | cons c rest =>
      cases hm : matchInc (c :: rest) with
      | some p =>
        simp only [scanInc, hm]
        constructor
        · intro h; simp at h
        · intro hall; exact absurd (by simpa using hall 0) (by simp [hm])
      | none =>
        simp only [scanInc, hm]
        rw [ih rest (by simpa using Nat.le_of_succ_le_succ hs)]
        constructor
        · intro hall k
          cases k with
          | zero => simpa using hm
          | succ k => simpa using hall k
        · intro hall k
          have := hall (k+1); simpa using this

/-! ### Position-annotated scans: erasure and order -/

theorem scanCmdsP_snd : ∀ (fuel pos : Nat) (s : List Char),
    (scanCmdsP fuel pos s).map Prod.snd = scanCmds fuel s := by
  intro fuel
  induction fuel with
  | zero => intro pos s; simp [scanCmdsP, scanCmds]
  | succ fuel ih =>
    intro pos s
    cases s with
    | nil => simp [scanCmdsP, scanCmds]
    | cons c rest =>
      cases hm : matchAt (c :: rest) with
      | none => simp only [scanCmdsP, scanCmds, hm]; exact ih (pos+1) rest
      | some p =>
        obtain ⟨cm, after⟩ := p
        simp only [scanCmdsP, scanCmds, hm, List.map_cons, List.cons.injEq]
        exact ⟨trivial, ih _ after⟩

theorem scanIncP_snd : ∀ (fuel pos : Nat) (s : List Char),
    (scanIncP fuel pos s).map Prod.snd = scanInc fuel s := by
  intro fuel
  induction fuel with
  | zero => intro pos s; simp [scanIncP, scanInc]
  | succ fuel ih =>
    intro pos s
    cases s with
    | nil => simp [scanIncP, scanInc]
    | cons c rest =>
      cases hm : matchInc (c :: rest) with
      | none => simp only [scanIncP, scanInc, hm]; exact ih (pos+1) rest
      | some p =>
        obtain ⟨cap, after⟩ := p
        simp only [scanIncP, scanInc, hm, List.map_cons, List.cons.injEq]
        exact ⟨trivial, ih _ after⟩

/-- The recorded positions of the command scan are the true match offsets of
the original text, and they are strictly increasing. -/
theorem scanCmdsP_spec : ∀ (fuel pos : Nat) (s0 : List Char),
    (∀ x ∈ scanCmdsP fuel pos (s0.drop pos),
        pos ≤ x.1 ∧ ∃ r, matchAt (s0.drop x.1) = some (x.2, r)) ∧
    List.Pairwise (fun a b : Nat × Command => a.1 < b.1)
      (scanCmdsP fuel pos (s0.drop pos)) := by
  intro fuel
  induction fuel with
  | zero => intro pos s0; simp [scanCmdsP]
  | succ fuel ih =>
    intro pos s0
    cases hs : s0.drop pos with
    | nil => simp [scanCmdsP]
    | cons c rest =>
      cases hm : matchAt (c :: rest) with
      | none =>
        have hrest : rest = s0.drop (pos + 1) := by
          rw [← List.drop_drop, hs]; rfl
        simp only [scanCmdsP, hm]
        have ihp := ih (pos+1) s0
        rw [← hrest] at ihp
        obtain ⟨ihm, ihp2⟩ := ihp
        refine ⟨?_, ihp2⟩
        intro x hx
        obtain ⟨hle, hr⟩ := ihm x hx
        exact ⟨by omega, hr⟩
      | some p =>
        obtain ⟨cm, after⟩ := p
        obtain ⟨pre, hpre, happ⟩ := matchAt_suffix hm
        have hlen : (c :: rest).length - after.length = pre.length := by
          rw [happ, List.length_append]; omega
        have hafter : after = s0.drop (pos + pre.length) := by
          rw [← List.drop_drop, hs, happ]
          exact (List.drop_left' rfl).symm
        have hpre1 : 1 ≤ pre.length := by
          cases pre with
          | nil => exact absurd rfl hpre
          | cons _ _ => simp
        simp only [scanCmdsP, hm, hlen]
        have ihp := ih (pos + pre.length) s0
        rw [← hafter] at ihp
        obtain ⟨ihm, ihp2⟩ := ihp
        constructor
        · intro x hx
          cases hx with
          | head =>
            exact ⟨Nat.le_refl pos, ⟨after, by rw [hs]; exact hm⟩⟩
          | tail _ hx2 =>
            obtain ⟨hle, hr⟩ := ihm x hx2
            exact ⟨by omega, hr⟩
        · refine List.Pairwise.cons ?_ ihp2
          intro b hb
          obtain ⟨hle, -⟩ := ihm b hb
          simp only []
          omega

/-- The recorded positions of the include scan are the true match offsets of
the original text, and they are strictly increasing. -/
theorem scanIncP_spec : ∀ (fuel pos : Nat) (s0 : List Char),
    (∀ x ∈ scanIncP fuel pos (s0.drop pos),
        pos ≤ x.1 ∧ ∃ r, matchInc (s0.drop x.1) = some (x.2, r)) ∧
    List.Pairwise (fun a b : Nat × List Char => a.1 < b.1)
      (scanIncP fuel pos (s0.drop pos)) := by
  intro fuel
  induction fuel with
  | zero => intro pos s0; simp [scanIncP]
  | succ fuel ih =>
    intro pos s0
    cases hs : s0.drop pos with
    | nil => simp [scanIncP]
    | cons c rest =>
      cases hm : matchInc (c :: rest) with
      | none =>
        have hrest : rest = s0.drop (pos + 1) := by
          rw [← List.drop_drop, hs]; rfl
        simp only [scanIncP, hm]
        have ihp := ih (pos+1) s0
        rw [← hrest] at ihp
        obtain ⟨ihm, ihp2⟩ := ihp
        refine ⟨?_, ihp2⟩
        intro x hx
        obtain ⟨hle, hr⟩ := ihm x hx
        exact ⟨by omega, hr⟩
      | some p =>
        obtain ⟨cap, after⟩ := p
        obtain ⟨happ, -⟩ := matchInc_inv hm
        have hpre : (incLit ++ cap) ≠ [] := by simp [incLit]
        have hlen : (c :: rest).length - after.length = (incLit ++ cap).length := by
          rw [happ, List.length_append]; omega
        have hafter : after = s0.drop (pos + (incLit ++ cap).length) := by
          rw [← List.drop_drop, hs, happ]
          exact (List.drop_left' rfl).symm
        have hpre1 : 1 ≤ (incLit ++ cap).length := by
          simp [incLit]
        simp only [scanIncP, hm, hlen]
        have ihp := ih (pos + (incLit ++ cap).length) s0
        rw [← hafter] at ihp
        obtain ⟨ihm, ihp2⟩ := ihp
        constructor
        · intro x hx
          cases hx with
          | head =>
            exact ⟨Nat.le_refl pos, ⟨after, by rw [hs]; exact hm⟩⟩
          | tail _ hx2 =>
            obtain ⟨hle, hr⟩ := ihm x hx2
            exact ⟨by omega, hr⟩
        · refine List.Pairwise.cons ?_ ihp2
          intro b hb
          obtain ⟨hle, -⟩ := ihm b hb
          simp only []
          omega

/-! ### Symbolic evaluation of the command pattern on well-formed blocks -/

theorem nodup_singleton_of {l : List Nat} {a : Nat} (hn : l.Nodup)
    (h : ∀ b, b ∈ l ↔ b = a) : l = [a] := by
  cases l with
  | nil => exact absurd ((h a).mpr rfl) (by simp)
  | cons x xs =>
    have hx : x = a := (h x).mp (by simp)
    subst hx
    cases xs with
    | nil => rfl
    | cons y ys =>
      have hy : y = x := (h y).mp (by simp)
      subst hy
      simp at hn

theorem mem_candKs {R : List Char} {k : Nat} :
    k ∈ candKs R ↔ (k ≠ 0 ∧ k < R.length ∧ R.getD k ' ' = ']') := by
  simp only [candKs, List.mem_reverse, List.mem_filter, List.mem_range,
    Bool.and_eq_true, bne_iff_ne, ne_eq, beq_iff_eq]
  tauto

theorem candKs_nodup (R : List Char) : (candKs R).Nodup := by
  simp only [candKs, List.nodup_reverse]
  exact (List.nodup_range _).filter _

/-- When the printable run after `[` contains exactly one `]`, at its end,
there is exactly one closing-bracket candidate. -/
theorem candKs_single {nm : List Char} (h1 : nm ≠ []) (h2 : ']' ∉ nm) :
    candKs (nm ++ [']']) = [nm.length] := by
  refine nodup_singleton_of (candKs_nodup _) ?_
  intro b
  rw [mem_candKs]
  constructor
  · rintro ⟨hb0, hblt, hbd⟩
    by_contra hbne
    have hblt' : b < nm.length := by
      rw [List.length_append] at hblt
      simp at hblt
      omega
    have hgd : (nm ++ [']']).getD b ' ' = nm.getD b ' ' :=
      List.getD_append _ _ _ _ hblt'
    have hmem : nm.getD b ' ' ∈ nm := by
      rw [List.getD_eq_getElem _ _ hblt']
      exact List.getElem_mem _
    rw [hgd] at hbd
    rw [hbd] at hmem
    exact h2 hmem
  · rintro rfl
    refine ⟨by simpa [List.length_pos] using h1, by simp, ?_⟩
    rw [List.getD_eq_getElem?_getD, List.getElem?_append_right (Nat.le_refl _)]
    simp

theorem tryCands_single (t : List Char) (k : Nat) :
    tryCands t [k] = attemptK t k := by
  simp only [tryCands]
  split
  · rename_i res heq; exact heq.symm
  · rename_i heq
    exact heq.symm

/-- Stripping the stored name: all leading `[` then the single trailing `]`. -/
theorem name_trims {nm : List Char} (h2 : ']' ∉ nm) :
    trimEndRB (trimStartLB ('[' :: (nm ++ [']']))) =
      nm.dropWhile (fun c => c = '[') := by
  unfold trimStartLB
  rw [List.dropWhile_cons_of_pos (by simp)]
  rw [dw_append]
  by_cases hnm : (nm.dropWhile (fun c => c = '[')).isEmpty
  · rw [if_pos hnm]
    rw [show List.dropWhile (fun c => c = '[') [']'] = [']'] from by simp]
    rw [show trimEndRB [']'] = [] from by simp [trimEndRB]]
    rw [List.isEmpty_iff] at hnm
    exact hnm.symm
  · rw [if_neg hnm]
    unfold trimEndRB
    rw [List.reverse_append]
    simp only [List.reverse_cons, List.reverse_nil, List.nil_append,
      List.singleton_append]
    rw [List.dropWhile_cons_of_pos (by simp)]
    have hsub : ∀ c ∈ (nm.dropWhile (fun c => c = '[')).reverse, c ∈ nm := by
      intro c hc
      rw [List.mem_reverse] at hc
      exact (List.dropWhile_sublist _).subset hc
    have hstay : (nm.dropWhile (fun c => c = '[')).reverse.dropWhile
        (fun c => c = ']') = (nm.dropWhile (fun c => c = '[')).reverse := by
      cases hrev : (nm.dropWhile (fun c => c = '[')).reverse with
      | nil => rfl
      | cons x xs =>
        have hx : x ∈ nm := hsub x (by rw [hrev]; simp)
        rw [List.dropWhile_cons_of_neg]
        simp only [decide_eq_true_eq]
        intro hxx
        subst hxx
        exact h2 hx
    rw [hstay, List.reverse_reverse]

/-- `matchAt` on a block whose header line is exactly `[nm]`. -/
theorem matchAt_block {nm w : List Char} (h1 : nm ≠ [])
    (hnp : ∀ c ∈ nm, isPrint c = true) (h2 : ']' ∉ nm) :
    matchAt ('[' :: (nm ++ ']' :: '\n' :: w)) =
      (afterName ('\n' :: w)).map (fun x =>
        ({ name := String.mk (nm.dropWhile (fun c => c = '[')),
           description := x.2.1, prior_commands := x.1,
           instructions := (splitNl x.2.2.1).map String.mk }, x.2.2.2)) := by
  have hsplit : nm ++ ']' :: '\n' :: w = (nm ++ [']']) ++ '\n' :: w := by simp
  have hall : ∀ c ∈ nm ++ [']'], isPrint c = true := by
    intro c hc
    rcases List.mem_append.mp hc with h | h
    · exact hnp c h
    · simp at h; subst h; decide
  have hR : takeP (nm ++ ']' :: '\n' :: w) = nm ++ [']'] := by
    rw [hsplit]
    simpa [takeP] using tw_app (p := isPrint) (by decide) hall w
  simp only [matchAt, if_pos rfl]
  rw [hR]
  rw [show (nm ++ [']']).isEmpty = false from by simp]
  simp only [Bool.false_eq_true, if_false]
  rw [candKs_single h1 h2, tryCands_single]
  simp only [attemptK]
  have htake : (nm ++ ']' :: '\n' :: w).take (nm.length + 1) = nm ++ [']'] := by
    rw [hsplit]
    exact List.take_left' (by simp)
  have hdrop : (nm ++ ']' :: '\n' :: w).drop (nm.length + 1) = '\n' :: w := by
    rw [hsplit]
    exact List.drop_left' (by simp)
  rw [htake, hdrop, name_trims h2]
  cases ha : afterName ('\n' :: w) with
  | none => rfl
  | some x =>
    obtain ⟨pr, d, icap, rest⟩ := x
    rfl

theorem descInstr_ne {b : Char} (hb : b ≠ '#') (l : List Char) :
    descInstr (b :: l) = none := by
  simp [descInstr, hb]

/-- `descInstr` on a description line followed by a printable-headed body. -/
theorem descInstr_eval {ds v : List Char} {b : Char} (hds : ds ≠ [])
    (hdsp : ∀ c ∈ ds, isPrint c = true) (hb : isPrint b = true) :
    descInstr ('#' :: (ds ++ '\n' :: (b :: v))) =
      some (String.mk ('#' :: ds),
        (instrLoop (b :: v).length (b :: v)).1,
        (instrLoop (b :: v).length (b :: v)).2) := by
  have ht : takeP (ds ++ '\n' :: (b :: v)) = ds := by
    simpa [takeP] using tw_app (p := isPrint) (by decide) hdsp (b :: v)
  have hd : dropP (ds ++ '\n' :: (b :: v)) = '\n' :: (b :: v) := by
    simpa [dropP] using dw_app (p := isPrint) (by decide) hdsp (b :: v)
  have hne : ds.isEmpty = false := by
    cases ds with
    | nil => exact absurd rfl hds
    | cons _ _ => rfl
  simp [descInstr, ht, hd, hne, hb, eatNl]

/-- `afterName` when the line after the header is the description line and
the first instruction line does not itself start with `#`. -/
theorem afterName_noDeps {ds v : List Char} {b : Char} (hds : ds ≠ [])
    (hdsp : ∀ c ∈ ds, isPrint c = true) (hb : isPrint b = true) (hbne : b ≠ '#') :
    afterName ('\n' :: ('#' :: (ds ++ '\n' :: (b :: v)))) =
      some ("", String.mk ('#' :: ds),
        (instrLoop (b :: v).length (b :: v)).1,
        (instrLoop (b :: v).length (b :: v)).2) := by
  have hP : takeP ('\n' :: ('#' :: (ds ++ '\n' :: (b :: v)))) = [] := by
    simp [takeP, List.takeWhile_cons]
    decide
  have hM : takeP ('#' :: (ds ++ '\n' :: (b :: v))) = '#' :: ds := by
    simp only [takeP, List.takeWhile_cons_of_pos (show isPrint '#' = true from by decide)]
    have := tw_app (p := isPrint) (show isPrint '\n' = false from by decide) hdsp (b :: v)
    simpa [takeP] using this
  have hMd : dropP ('#' :: (ds ++ '\n' :: (b :: v))) = '\n' :: (b :: v) := by
    simp only [dropP, List.dropWhile_cons_of_pos (show isPrint '#' = true from by decide)]
    simpa [dropP] using dw_app (p := isPrint) (show isPrint '\n' = false from by decide) hdsp (b :: v)
  simp only [afterName, hP, List.isEmpty_nil, if_pos]
  rw [show eatNl ('\n' :: ('#' :: (ds ++ '\n' :: (b :: v)))) =
    some (['\n'], '#' :: (ds ++ '\n' :: (b :: v))) from rfl]
  simp only [hM, hMd]
  rw [show ('#' :: ds).isEmpty = false from rfl]
  simp only [Bool.false_eq_true, if_false]
  rw [show eatNl ('\n' :: (b :: v)) = some (['\n'], b :: v) from rfl]
  simp only [descInstr_ne hbne]
  rw [show eatNl ('#' :: (ds ++ '\n' :: (b :: v))) = none from rfl]
  simp only [Option.map_none']
  rw [descInstr_eval hds hdsp hb]
  rfl

/-- `afterName` when the line after the header is a dependencies line. -/
theorem afterName_deps {dep rest2 : List Char} {res : String × List Char × List Char}
    (hdep : dep ≠ []) (hdepp : ∀ c ∈ dep, isPrint c = true)
    (hd : descInstr rest2 = some res) :
    afterName ('\n' :: (dep ++ '\n' :: rest2)) = some (String.mk dep, res) := by
  have hP : takeP ('\n' :: (dep ++ '\n' :: rest2)) = [] := by
    simp [takeP, List.takeWhile_cons]
    decide
  have hM : takeP (dep ++ '\n' :: rest2) = dep := by
    simpa [takeP] using tw_app (p := isPrint) (by decide) hdepp rest2
  have hMd : dropP (dep ++ '\n' :: rest2) = '\n' :: rest2 := by
    simpa [dropP] using dw_app (p := isPrint) (by decide) hdepp rest2
  have hne : dep.isEmpty = false := by
    cases dep with
    | nil => exact absurd rfl hdep
    | cons _ _ => rfl
  simp only [afterName, hP, List.isEmpty_nil, if_pos]
  rw [show eatNl ('\n' :: (dep ++ '\n' :: rest2)) =
    some (['\n'], dep ++ '\n' :: rest2) from rfl]
  simp only [hM, hMd, hne, Bool.false_eq_true, if_false]
  rw [show eatNl ('\n' :: rest2) = some (['\n'], rest2) from rfl]
  simp only [hd, Option.map_some']

/-- The instructions group on a single printable line at end of document:
captures the line, leaves nothing. -/
theorem instrLoop_allP {l : List Char} (hl : ∀ c ∈ l, isPrint c = true)
    (fuel : Nat) : instrLoop (fuel+1) l = (l, []) := by
  have ht : takeP l = l := tw_all hl
  have hd : dropP l = [] := dw_all hl
  simp [instrLoop, ht, hd, eatNl]

/-- The instructions group on a single printable line followed by a final
separator: the separator is consumed into the capture. -/
theorem instrLoop_trail {l : List Char} (hl : ∀ c ∈ l, isPrint c = true)
    (fuel : Nat) : instrLoop (fuel+1) (l ++ ['\n']) = (l ++ ['\n'], []) := by
  have ht : takeP (l ++ ['\n']) = l := by
    simpa [takeP] using tw_app (p := isPrint) (by decide) hl []
  have hd : dropP (l ++ ['\n']) = ['\n'] := by
    simpa [dropP] using dw_app (p := isPrint) (by decide) hl []
  simp [instrLoop, ht, hd, eatNl]

theorem printable_ne_nl {l : List Char} (hl : ∀ c ∈ l, isPrint c = true) :
    ∀ c ∈ l, ¬(c = '\n') := by
  intro c hc he
  subst he
  have := hl _ hc
  simp [isPrint] at this

/-- Splitting a separator-free line at `'\n'` yields that line alone. -/
theorem splitNl_noNl : ∀ {l : List Char}, (∀ c ∈ l, ¬(c = '\n')) →
    splitNl l = [l]
  | [], _ => rfl
  | c :: r, h => by
    rw [splitNl, if_neg (h c (by simp))]
    rw [splitNl_noNl (fun x hx => h x (by simp [hx]))]

/-- Splitting a line with a final separator yields the line and a trailing
empty piece. -/
theorem splitNl_trail : ∀ {l : List Char}, (∀ c ∈ l, ¬(c = '\n')) →
    splitNl (l ++ ['\n']) = [l, []]
  | [], _ => rfl
  | c :: r, h => by
    rw [List.cons_append, splitNl, if_neg (h c (by simp))]
    rw [splitNl_trail (fun x hx => h x (by simp [hx]))]

/-- A document consisting of one full match parses to exactly that Command. -/
theorem parseCommands_single {doc : List Char} {cm : Command}
    (h : matchAt doc = some (cm, [])) :
    parseCommands (String.mk doc) = [cm] := by
  cases doc with
  | nil => simp [matchAt] at h
  | cons c rest =>
    show scanCmds ((c :: rest).length + 1) (c :: rest) = [cm]
    simp only [List.length_cons]
    simp [scanCmds, h, scanCmds_nil]

/-- Parsing a single block `[nm]` / `#ds` / one instruction line, at end of
document: empty dependency token, the `#`-line as description, the
instruction line verbatim. -/
theorem parse_block_noDeps {nm ds body : List Char} {b : Char}
    (hnm1 : nm ≠ []) (hnm2 : ∀ c ∈ nm, isPrint c = true) (hnm3 : ']' ∉ nm)
    (hds1 : ds ≠ []) (hds2 : ∀ c ∈ ds, isPrint c = true)
    (hb : isPrint b = true) (hbne : b ≠ '#')
    (hbody : ∀ c ∈ body, isPrint c = true) :
    parseCommands (String.mk
        ('[' :: (nm ++ ']' :: '\n' :: ('#' :: (ds ++ '\n' :: (b :: body)))))) =
      [{ name := String.mk (nm.dropWhile (fun c => c = '[')),
         description := String.mk ('#' :: ds), prior_commands := "",
         instructions := [String.mk (b :: body)] }] := by
  have hv : ∀ c ∈ b :: body, isPrint c = true := by
    intro c hc
    rcases List.mem_cons.mp hc with h | h
    · subst h; exact hb
    · exact hbody c h
  apply parseCommands_single
  rw [matchAt_block hnm1 hnm2 hnm3]
  rw [afterName_noDeps hds1 hds2 hb hbne]
  rw [show (b :: body).length = body.length + 1 from rfl]
  rw [instrLoop_allP hv]
  simp only [Option.map_some']
  rw [splitNl_noNl (printable_ne_nl hv)]
  simp

/-- Parsing a single block whose final instruction line carries a trailing
separator: the split produces a trailing empty instruction entry. -/
theorem parse_block_trailNl {nm ds body : List Char} {b : Char}
    (hnm1 : nm ≠ []) (hnm2 : ∀ c ∈ nm, isPrint c = true) (hnm3 : ']' ∉ nm)
    (hds1 : ds ≠ []) (hds2 : ∀ c ∈ ds, isPrint c = true)
    (hb : isPrint b = true) (hbne : b ≠ '#')
    (hbody : ∀ c ∈ body, isPrint c = true) :
    parseCommands (String.mk
        ('[' :: (nm ++ ']' :: '\n' :: ('#' :: (ds ++ '\n' ::
          (b :: (body ++ ['\n']))))))) =
      [{ name := String.mk (nm.dropWhile (fun c => c = '[')),
         description := String.mk ('#' :: ds), prior_commands := "",
         instructions := [String.mk (b :: body), ""] }] := by
  have hv : ∀ c ∈ b :: body, isPrint c = true := by
    intro c hc
    rcases List.mem_cons.mp hc with h | h
    · subst h; exact hb
    · exact hbody c h
  apply parseCommands_single
  rw [matchAt_block hnm1 hnm2 hnm3]
  rw [afterName_noDeps hds1 hds2 hb hbne]
  rw [show (b :: (body ++ ['\n'])) = (b :: body) ++ ['\n'] from rfl]
  rw [show ((b :: body) ++ ['\n']).length = (body.length + 1) + 1 from by simp]
  rw [instrLoop_trail hv]
  simp only [Option.map_some']
  rw [splitNl_trail (printable_ne_nl hv)]
  simp

/-- Parsing a single block with a dependencies line: the stored token is the
line's text verbatim. -/
theorem parse_block_deps {nm dep ds body : List Char} {b : Char}
    (hnm1 : nm ≠ []) (hnm2 : ∀ c ∈ nm, isPrint c = true) (hnm3 : ']' ∉ nm)
    (hdep1 : dep ≠ []) (hdep2 : ∀ c ∈ dep, isPrint c = true)
    (hds1 : ds ≠ []) (hds2 : ∀ c ∈ ds, isPrint c = true)
    (hb : isPrint b = true) (hbody : ∀ c ∈ body, isPrint c = true) :
    parseCommands (String.mk
        ('[' :: (nm ++ ']' :: '\n' :: (dep ++ '\n' ::
          ('#' :: (ds ++ '\n' :: (b :: body))))))) =
      [{ name := String.mk (nm.dropWhile (fun c => c = '[')),
         description := String.mk ('#' :: ds), prior_commands := String.mk dep,
         instructions := [String.mk (b :: body)] }] := by
  have hv : ∀ c ∈ b :: body, isPrint c = true := by
    intro c hc
    rcases List.mem_cons.mp hc with h | h
    · subst h; exact hb
    · exact hbody c h
  apply parseCommands_single
  rw [matchAt_block hnm1 hnm2 hnm3]
  rw [afterName_deps hdep1 hdep2 (descInstr_eval hds1 hds2 hb)]
  rw [show (b :: body).length = body.length + 1 from rfl]
  rw [instrLoop_allP hv]
  simp only [Option.map_some']
  rw [splitNl_noNl (printable_ne_nl hv)]
  simp

/-! ### Claims -/

/-- C1, counterexample: in `[a]\n#d\nins1\n[b]\n#d2\nins2` the bracket header
`[b]` starting the next task block IS captured as an instruction of the
preceding Command (the greedy instructions group is terminated only by a
blank line, a non-printable character or end of document, never by a
header), so only one Command is produced. -/
theorem c1_counterexample :
    parseCommands "[a]\n#d\nins1\n[b]\n#d2\nins2" =
      [{ name := "a", description := "#d", prior_commands := "",
         instructions := ["ins1", "[b]", "#d2", "ins2"] }] ∧
    "[b]" ∈ (Command.mk "a" "#d" "" ["ins1", "[b]", "#d2", "ins2"]).instructions := by
  constructor
  · decide
  · decide

/-- C1 (amended): a Command's instruction capture consists of the consecutive
printable-text lines following the description line, and it is terminated
only by end of document or by a non-printable character (in particular a
blank line); since `[` is printable, a bracket header line that follows the
instructions without an intervening blank line is included in the capture,
not treated as a terminator. -/
theorem c1_amended :
    (∀ (fuel : Nat) (s : List Char),
      (instrLoop fuel s).1 ++ (instrLoop fuel s).2 = s) ∧
    (∀ (fuel : Nat) (s : List Char), s.length ≤ fuel →
      ∀ (c : Char) (cs : List Char), (instrLoop fuel s).2 = c :: cs →
        isPrint c = false) ∧
    (∀ (s : List Char) (cm : Command) (r : List Char), matchAt s = some (cm, r) →
      ∃ v, cm.instructions = (splitNl (instrLoop v.length v).1).map String.mk ∧
        r = (instrLoop v.length v).2) ∧
    isPrint '[' = true := by
  refine ⟨instrLoop_app, ?_, ?_, by decide⟩
  · intro fuel s hs c cs h
    exact instrLoop_rest fuel s hs h
  · intro s cm r hm
    obtain ⟨D, v, -, -, -, -, hi, hr⟩ := matchAt_shape hm
    exact ⟨v, hi, hr⟩

theorem c1_witness :
    isPrint '\n' = false ∧
    (instrLoop 3 "a\n\n".data).1 ++ (instrLoop 3 "a\n\n".data).2 = "a\n\n".data :=
  ⟨c1_amended.2.1 3 "a\n\n".data (by decide) '\n' [] (by decide),
   c1_amended.1 3 "a\n\n".data⟩

/-- C2, counterexample: when the final instruction line is followed by a line
separator, a trailing EMPTY instruction entry IS produced (`split('\n')`
keeps the empty piece after the captured final separator), and the rendered
block then contains a line consisting of only a tab. -/
theorem c2_counterexample :
    parseCommands "[a]\n#d\nins\n" =
      [{ name := "a", description := "#d", prior_commands := "",
         instructions := ["ins", ""] }] ∧
    Command.to_makefile (Command.mk "a" "#d" "" ["ins", ""]) =
      "## a: d\n.PHONY: a\na: \n\tins\n\t\n" := by
  constructor
  · decide
  · decide

/-- C2 (amended): each source line of the instructions region becomes exactly
one instruction entry, but when the final instruction line is followed by a
line separator, a trailing empty instruction entry IS produced (the
instructions vector ends with an empty string), and the rendered block then
ends with a line consisting of only a tab. -/
theorem c2_amended :
    (∀ (nm ds body : List Char) (b : Char),
      nm ≠ [] → (∀ c ∈ nm, isPrint c = true) → ']' ∉ nm →
      ds ≠ [] → (∀ c ∈ ds, isPrint c = true) →
      isPrint b = true → b ≠ '#' → (∀ c ∈ body, isPrint c = true) →
      parseCommands (String.mk
        ('[' :: (nm ++ ']' :: '\n' :: ('#' :: (ds ++ '\n' ::
          (b :: (body ++ ['\n']))))))) =
        [{ name := String.mk (nm.dropWhile (fun c => c = '[')),
           description := String.mk ('#' :: ds), prior_commands := "",
           instructions := [String.mk (b :: body), ""] }]) ∧
    (∀ (n d p : String) (li : List String),
      Command.to_makefile (Command.mk n d p (li ++ [""])) =
      Command.to_makefile (Command.mk n d p li) ++ "\t\n") := by
  constructor
  · intro nm ds body b h1 h2 h3 h4 h5 h6 h7 h8
    exact parse_block_trailNl h1 h2 h3 h4 h5 h6 h7 h8
  · intro n d p li
    simp only [Command.to_makefile, List.foldl_append, List.foldl_cons,
      List.foldl_nil]
    congr 1

theorem c2_witness :
    parseCommands "[a]\n#d\ni\n" =
      [{ name := "a", description := "#d", prior_commands := "",
         instructions := ["i", ""] }] := by
  have h := c2_amended.1 ['a'] ['d'] [] 'i' (by decide) (by decide) (by decide)
    (by decide) (by decide) (by decide) (by decide) (by decide)
  exact h

/-- C3: the rendered output is exactly the fixed structure of the spec:
header comment line, `DD/MM/YYYY` date line, blank line; one
`include <target>` line per include then a blank line (also with zero
includes); the boilerplate blob then a blank line; then one block per
Command of the exact four-part shape, each followed by a trailing
newline. -/
theorem c3_structure : ∀ (incl : List String) (blob : String)
    (cmds : List Command) (d m y : Nat),
    write incl blob cmds (formatDate d m y) =
      renderSpec incl blob cmds (formatDate d m y) ∧
    (∀ c : Command, Command.to_makefile c = blockSpec c) ∧
    formatDate d m y = pad2 d ++ "/" ++ pad2 m ++ "/" ++ pad4 y :=
  fun incl blob cmds d m y =>
    ⟨write_eq_renderSpec incl blob cmds (formatDate d m y),
     fun c => to_makefile_eq_blockSpec c, rfl⟩

/-- C4, counterexample: for `[a]\n#d1\n#d2\nins\n`, where the line after the
header starts with `#` AND another `#`-prefixed line follows, the greedy
optional dependencies group captures the first `#`-line (`#d1`) as the
dependency token, and `#d2` becomes the description — refuting the claim
that the `#`-line is never captured as the dependencies line in this case. -/
theorem c4_counterexample :
    parseCommands "[a]\n#d1\n#d2\nins\n" =
      [{ name := "a", description := "#d2", prior_commands := "#d1",
         instructions := ["ins", ""] }] ∧
    ("#d1" : String) ≠ "" := by
  constructor
  · decide
  · decide

/-- C4 (amended): for a block whose line immediately after the header begins
with `#` and whose NEXT line does not also begin with `#`, the parser
produces a Command with empty dependency token and that `#`-line as the
description.  (When another `#`-line follows, the first `#`-line is captured
as the dependency token instead — see the counterexample.) -/
theorem c4_amended : ∀ (nm ds body : List Char) (b : Char),
    nm ≠ [] → (∀ c ∈ nm, isPrint c = true) → ']' ∉ nm →
    ds ≠ [] → (∀ c ∈ ds, isPrint c = true) →
    isPrint b = true → b ≠ '#' → (∀ c ∈ body, isPrint c = true) →
    parseCommands (String.mk ('[' :: (nm ++ ']' :: '\n' ::
        ('#' :: (ds ++ '\n' :: (b :: body)))))) =
      [{ name := String.mk (nm.dropWhile (fun c => c = '[')),
         description := String.mk ('#' :: ds), prior_commands := "",
         instructions := [String.mk (b :: body)] }] :=
  fun _ _ _ _ h1 h2 h3 h4 h5 h6 h7 h8 =>
    parse_block_noDeps h1 h2 h3 h4 h5 h6 h7 h8

theorem c4_witness :
    parseCommands "[a]\n#d\ni" =
      [{ name := "a", description := "#d", prior_commands := "",
         instructions := ["i"] }] := by
  have h := c4_amended ['a'] ['d'] [] 'i' (by decide) (by decide) (by decide)
    (by decide) (by decide) (by decide) (by decide) (by decide)
  exact h

/-- C5, counterexample: the dependencies line ` dep ` is stored verbatim,
NOT trimmed: the stored token is `" dep "`, while trimming (which the claim
asserts) would give `"dep"`. -/
theorem c5_counterexample :
    parseCommands "[a]\n dep \n#d\ni" =
      [{ name := "a", description := "#d", prior_commands := " dep ",
         instructions := ["i"] }] ∧
    rustTrim " dep " = "dep" ∧ (" dep " : String) ≠ "dep" := by
  refine ⟨by decide, by decide, by decide⟩

/-- C5 (amended): for every recognized block with a dependencies line, the
stored dependency token equals that line's full text VERBATIM (untrimmed,
not re-split); for a block with no dependencies line the token is the empty
string. -/
theorem c5_amended :
    (∀ (nm dep ds body : List Char) (b : Char),
      nm ≠ [] → (∀ c ∈ nm, isPrint c = true) → ']' ∉ nm →
      dep ≠ [] → (∀ c ∈ dep, isPrint c = true) → dep.head? ≠ some '#' →
      ds ≠ [] → (∀ c ∈ ds, isPrint c = true) →
      isPrint b = true → (∀ c ∈ body, isPrint c = true) →
      parseCommands (String.mk
        ('[' :: (nm ++ ']' :: '\n' :: (dep ++ '\n' ::
          ('#' :: (ds ++ '\n' :: (b :: body))))))) =
        [{ name := String.mk (nm.dropWhile (fun c => c = '[')),
           description := String.mk ('#' :: ds),
           prior_commands := String.mk dep,
           instructions := [String.mk (b :: body)] }]) ∧
    (∀ (nm ds body : List Char) (b : Char),
      nm ≠ [] → (∀ c ∈ nm, isPrint c = true) → ']' ∉ nm →
      ds ≠ [] → (∀ c ∈ ds, isPrint c = true) →
      isPrint b = true → b ≠ '#' → (∀ c ∈ body, isPrint c = true) →
      (parseCommands (String.mk ('[' :: (nm ++ ']' :: '\n' ::
          ('#' :: (ds ++ '\n' :: (b :: body))))))).map Command.prior_commands =
        [""]) := by
  constructor
  · intro nm dep ds body b h1 h2 h3 h4 h5 _ h6 h7 h8 h9
    exact parse_block_deps h1 h2 h3 h4 h5 h6 h7 h8 h9
  · intro nm ds body b h1 h2 h3 h4 h5 h6 h7 h8
    rw [parse_block_noDeps h1 h2 h3 h4 h5 h6 h7 h8]
    rfl

theorem c5_witness :
    parseCommands "[a]\n d\n#d\ni" =
      [{ name := "a", description := "#d", prior_commands := " d",
         instructions := ["i"] }] := by
  have h := c5_amended.1 ['a'] [' ', 'd'] ['d'] [] 'i' (by decide) (by decide)
    (by decide) (by decide) (by decide) (by decide) (by decide) (by decide)
    (by decide) (by decide)
  exact h

/-- C6, counterexample: `trim_start_matches`/`trim_end_matches` strip ALL
leading `[` and ALL trailing `]`, not exactly one each: for header `[[x]`
the stored name is `"x"` (the claim predicts `"[x"`), and for header `[]]`
the stored name is the EMPTY string (the claim asserts non-emptiness). -/
theorem c6_counterexample :
    parseCommands "[[x]\n#d\ni" =
      [{ name := "x", description := "#d", prior_commands := "",
         instructions := ["i"] }] ∧
    parseCommands "[]]\n#d\ni" =
      [{ name := "", description := "#d", prior_commands := "",
         instructions := ["i"] }] ∧
    ("x" : String) ≠ "[x" := by
  refine ⟨by decide, by decide, by decide⟩

/-- C6 (amended): the Command's name equals the bracket-delimited capture
with ALL leading `[` characters and ALL trailing `]` characters stripped
(for a header `[nm]` with no `]` inside `nm`, the stored name is `nm` with
every leading `[` removed); the result may be empty. -/
theorem c6_amended : ∀ (nm ds body : List Char) (b : Char),
    nm ≠ [] → (∀ c ∈ nm, isPrint c = true) → ']' ∉ nm →
    ds ≠ [] → (∀ c ∈ ds, isPrint c = true) →
    isPrint b = true → b ≠ '#' → (∀ c ∈ body, isPrint c = true) →
    (parseCommands (String.mk ('[' :: (nm ++ ']' :: '\n' ::
        ('#' :: (ds ++ '\n' :: (b :: body))))))).map Command.name =
      [String.mk (nm.dropWhile (fun c => c = '['))] := by
  intro nm ds body b h1 h2 h3 h4 h5 h6 h7 h8
  rw [parse_block_noDeps h1 h2 h3 h4 h5 h6 h7 h8]
  rfl

theorem c6_witness :
    (parseCommands "[[x]\n#d\ni").map Command.name = ["x"] := by
  have h := c6_amended ['[', 'x'] ['d'] [] 'i' (by decide) (by decide)
    (by decide) (by decide) (by decide) (by decide) (by decide) (by decide)
  exact h

/-- C7: parsing preserves first-appearance order — the position-annotated
scans carry strictly increasing match offsets that are genuine match
positions of the source text, and erase to exactly `parse`'s outputs — and
the renderer emits include lines and Command blocks in exactly the list
order it is given (the join shape of `renderSpec`). -/
theorem c7_order : ∀ s : String,
    (parseCommandsP s).map Prod.snd = parseCommands s ∧
    (parseIncludesP s).map Prod.snd = parseIncludes s ∧
    List.Pairwise (fun a b => a.1 < b.1) (parseCommandsP s) ∧
    List.Pairwise (fun a b => a.1 < b.1) (parseIncludesP s) ∧
    (∀ x ∈ parseCommandsP s, ∃ r, matchAt (s.data.drop x.1) = some (x.2, r)) ∧
    (∀ x ∈ parseIncludesP s, ∃ r, matchInc (s.data.drop x.1) = some (x.2.data, r)) ∧
    (∀ (incl : List String) (blob : String) (cmds : List Command) (date : String),
      write incl blob cmds date = renderSpec incl blob cmds date) := by
  intro s
  have hc := scanCmdsP_spec (s.data.length + 1) 0 s.data
  have hi := scanIncP_spec (s.data.length + 1) 0 s.data
  rw [List.drop_zero] at hc hi
  refine ⟨scanCmdsP_snd _ 0 s.data, ?_, hc.2, ?_, ?_, ?_,
    fun i b c d => write_eq_renderSpec i b c d⟩
  · show ((scanIncP _ 0 s.data).map (fun x => (x.1, String.mk x.2))).map
        Prod.snd = _
    rw [List.map_map]
    have : (Prod.snd ∘ fun x : Nat × List Char => (x.1, String.mk x.2)) =
        (String.mk ∘ Prod.snd) := rfl
    rw [this, ← List.map_map, scanIncP_snd _ 0 s.data]
    rfl
  · exact List.Pairwise.map _ (fun a b h => h) hi.2
  · intro x hx
    exact (hc.1 x hx).2
  · intro x hx
    obtain ⟨y, hy, rfl⟩ := List.mem_map.mp hx
    obtain ⟨-, r, hr⟩ := hi.1 y hy
    exact ⟨r, hr⟩

theorem c7_witness :
    (parseCommandsP "[a]\n#d\ni").map Prod.snd = parseCommands "[a]\n#d\ni" :=
  (c7_order "[a]\n#d\ni").1

/-- C8: rendering is deterministic — it is a pure function of the include
sequence, the boilerplate blob, the Command sequence and the (injected)
timestamp, so two runs with the timestamp held fixed produce byte-identical
output. -/
theorem c8_deterministic : ∀ (incl : List String) (blob : String)
    (cmds : List Command) (d1 d2 : String),
    d1 = d2 → write incl blob cmds d1 = write incl blob cmds d2 := by
  intro incl blob cmds d1 d2 h
  rw [h]

theorem c8_witness :
    write ["config.mk"] "B" [] "07/10/2026" = write ["config.mk"] "B" [] "07/10/2026" :=
  c8_deterministic ["config.mk"] "B" [] "07/10/2026" "07/10/2026" rfl

/-- C9: extraction is total (both extractors are plain functions into lists;
no error value exists): a document has an empty include sequence exactly
when no position matches the include pattern, an empty Command sequence
exactly when no position matches the block pattern — so zero matches yield
empty sequences, not errors, and malformed candidate blocks are silently
skipped, as on the document `[x]\n#desc\n` whose block lacks an instruction
line. -/
theorem c9_total :
    (∀ s : String,
      (parseIncludes s = [] ↔ ∀ k, matchInc (s.data.drop k) = none) ∧
      (parseCommands s = [] ↔ ∀ k, matchAt (s.data.drop k) = none)) ∧
    parse "[x]\n#desc\n" = ([], []) := by
  constructor
  · intro s
    constructor
    · show (scanInc _ s.data).map String.mk = [] ↔ _
      rw [List.map_eq_nil_iff]
      exact scanInc_eq_nil _ _ (Nat.le_succ _)
    · exact scanCmds_eq_nil _ _ (Nat.le_succ _)
  · decide

theorem c9_witness : parse "[x]\n#desc\n" = ([], []) := c9_total.2

/-- C10: every Command produced by the parser has a description of the form
`#` followed by a nonempty run of ASCII-printable characters; hence the
description has at least two characters and starts with the one-byte ASCII
`#`, so the render-time byte slice `description[1..]` is in bounds and on a
character boundary and cannot panic. -/
theorem c10_description : ∀ (s : String) (c : Command), c ∈ (parse s).2 →
    ∃ D, c.description = String.mk ('#' :: D) ∧ D ≠ [] ∧
      (∀ ch ∈ D, isPrint ch = true) ∧
      c.description.data.head? = some '#' ∧ 2 ≤ c.description.data.length := by
  intro s c hc
  obtain ⟨u, r, hm⟩ := scanCmds_mem (s.data.length + 1) s.data c hc
  obtain ⟨D, v, hD, hDp, hdesc, -, -, -⟩ := matchAt_shape hm
  refine ⟨D, hdesc, hD, hDp, by rw [hdesc]; rfl, ?_⟩
  rw [hdesc]
  show 2 ≤ ('#' :: D).length
  have : 0 < D.length := List.length_pos.mpr hD
  simp only [List.length_cons]
  omega

theorem c10_witness :
    ∃ D, ("#d" : String) = String.mk ('#' :: D) ∧ D ≠ [] ∧
      (∀ ch ∈ D, isPrint ch = true) ∧
      ("#d" : String).data.head? = some '#' ∧ 2 ≤ ("#d" : String).data.length :=
  c10_description "[a]\n#d\ni"
    { name := "a", description := "#d", prior_commands := "",
      instructions := ["i"] } (by decide)
